import Mathlib

/-!
Verification of the `parse-pos` library (`src/lib.rs`): a position/span
model (`Position`), generic located-value wrappers (`Located`,
`PathLocated`), and the diagnostic snippet renderer `Position::display`.

The embedding is shallow: Rust `usize` becomes `Nat` (the code performs no
arithmetic that can overflow on the sizes involved), Rust `Range<usize>`
becomes a structure of two `Nat`s (Rust's field `end` is named `stop` here
because `end` is a Lean keyword), and the `&mut self` update of
`Position::extend` becomes a function returning the updated value.
`Position::display` writes through `core::fmt::Write` with `?`, so it is
embedded in the `Except` monad; the write primitive itself is
`impl Write for String`, which always returns `Ok` per the Rust standard
library, so the embedded primitive `wrln` is always `Except.ok`.
-/

namespace ParsePos

/-- Rust `Range<usize>`: half-open range; field `end` is rendered `stop`. -/
structure Range where
  start : Nat
  stop : Nat
deriving DecidableEq, Repr

/-- `Position` from `src/lib.rs`: a pair of line/column ranges. -/
structure Position where
  ln : Range
  col : Range
deriving DecidableEq, Repr

/-- `Located<T>` from `src/lib.rs`: a value plus a `Position`. -/
structure Located (T : Type) where
  value : T
  pos : Position

/-- `PathLocated<T>` from `src/lib.rs`: a value plus a `Position` plus a
path (`Box<Path>` is modelled as a `String`). -/
structure PathLocated (T : Type) where
  value : T
  pos : Position
  path : String

/-- `Position::extend`: widens `self` by `other`, one conditional
assignment per bound, exactly as the four `if` statements in the source. -/
def Position.extend (self : Position) (other : Position) : Position :=
  let self :=
    if self.ln.start > other.ln.start then
      { self with ln := { self.ln with start := other.ln.start } }
    else self
  let self :=
    if self.ln.stop < other.ln.stop then
      { self with ln := { self.ln with stop := other.ln.stop } }
    else self
  let self :=
    if self.col.start > other.col.start then
      { self with col := { self.col with start := other.col.start } }
    else self
  if self.col.stop < other.col.stop then
    { self with col := { self.col with stop := other.col.stop } }
  else self

/-- `impl PartialEq for Located<T>`: only the inner values get compared. -/
def Located.beq {T : Type} [DecidableEq T] (self other : Located T) : Bool :=
  self.value == other.value

/-- `impl PartialEq for PathLocated<T>`: only the inner values get
compared. -/
def PathLocated.beq {T : Type} [DecidableEq T] (self other : PathLocated T) : Bool :=
  self.value == other.value

/-- `Located::map`: transforms the value, carries the position unchanged. -/
def Located.map {T U : Type} (self : Located T) (f : T → U) : Located U :=
  { value := f self.value, pos := self.pos }

/-- `PathLocated::map`: transforms the value, carries position and path
unchanged. -/
def PathLocated.map {T U : Type} (self : PathLocated T) (f : T → U) : PathLocated U :=
  { value := f self.value, pos := self.pos, path := self.path }

/-- The sequence of words a `Hasher` receives from the derived
`Hash for Position`: each `Range` field feeds `start` then `end`. -/
def Position.hashFeed (p : Position) : List Nat :=
  [p.ln.start, p.ln.stop, p.col.start, p.col.stop]

/-- `impl Hash for Located<T>`: feeds the value's hash words (given by
`hT`), then the position's. -/
def Located.hashFeed {T : Type} (hT : T → List Nat) (x : Located T) : List Nat :=
  hT x.value ++ Position.hashFeed x.pos

/-- Hash words of a path, one per character codepoint. -/
def pathHashFeed (s : String) : List Nat :=
  s.data.map Char.toNat

/-- `impl Hash for PathLocated<T>`: feeds the value's hash words, then the
position's, then the path's. -/
def PathLocated.hashFeed {T : Type} (hT : T → List Nat) (x : PathLocated T) : List Nat :=
  hT x.value ++ Position.hashFeed x.pos ++ pathHashFeed x.path

/-! ## The renderer `Position::display` -/

/-- Split a character list at each newline character; the result always has
one more entry than the number of newlines. -/
def splitNl : List Char → List (List Char)
  | [] => [[]]
  | c :: cs =>
    if c = '\n' then [] :: splitNl cs
    else
      match splitNl cs with
      | [] => [[c]]
      | l :: ls => (c :: l) :: ls

/-- Remove one trailing carriage return, if present. -/
def stripCR (l : List Char) : List Char :=
  match l.getLast? with
  | some c => if c = '\r' then l.dropLast else l
  | none => l

/-- Rust `str::lines` as called by `Position::display`: split on `'\n'`,
strip a `'\r'` preceding each split point, and do not produce a final empty
line for a trailing line terminator.  A piece is followed by a newline
(hence CR-stripped) exactly when it is not the last piece. -/
def rustLines (content : String) : List String :=
  if content.data.isEmpty then []
  else
    let parts := splitNl content.data
    let body := parts.dropLast.map (fun l => String.mk (stripCR l))
    match parts.getLast? with
    | some [] => body
    | some last => body ++ [String.mk last]
    | none => body

/-- Rust slice indexing `lines.get(a..=b)`: `Some` of the sub-slice when
`a ≤ b + 1` and `b + 1 ≤ lines.len()`, `None` otherwise. -/
def sliceGetInclusive {α : Type} (l : List α) (a b : Nat) : Option (List α) :=
  if a ≤ b + 1 ∧ b + 1 ≤ l.length then some ((l.drop a).take (b + 1 - a))
  else none

/-- Rust `str::char_indices`: each character paired with its starting byte
offset in the UTF-8 encoding. -/
def charIndicesAux : Nat → List Char → List (Nat × Char)
  | _, [] => []
  | i, c :: cs => (i, c) :: charIndicesAux (i + c.utf8Size) cs

/-- `line.char_indices()` on a string. -/
def charIndices (s : String) : List (Nat × Char) :=
  charIndicesAux 0 s.data

/-- Rust `format!("{:>w$}", s)`: left-pad with spaces to display width `w`
(width is counted in characters). -/
def padLeft (s : String) (w : Nat) : String :=
  String.mk (List.replicate (w - s.data.length) ' ') ++ s

/-- The `writeln!` primitive writing into a `String` buffer: appends the
text plus a newline.  `impl Write for String` never fails, so this always
returns `Except.ok`. -/
def wrln (f : String) (s : String) : Except Unit String :=
  Except.ok (f ++ s ++ "\n")

/-- The body of the `for (ln, line) in lines.iter().copied().enumerate()`
loop in the multi-line branch of `Position::display`. -/
def displayRowM (p : Position) (lastLn : Nat) (f : String) (x : Nat × String) :
    Except Unit String := do
  let ln := x.1
  let line := x.2
  let f ← wrln f (padLeft (toString (ln + 1)) 4 ++ "| " ++ line)
  if ln == 0 then
    wrln f (padLeft "" 4 ++ "  " ++
      String.mk ((charIndices line).map
        (fun ic => if p.col.start ≤ ic.1 then '~' else ' ')))
  else if ln == lastLn then
    wrln f (padLeft "" 4 ++ "  " ++
      String.mk ((charIndices line).map
        (fun ic => if p.col.stop > ic.1 then '~' else ' ')))
  else
    wrln f (padLeft "" 4 ++ "  " ++
      String.mk (List.replicate line.utf8ByteSize '~'))

/-- `Position::display` from `src/lib.rs`, with the buffer `f` passed and
returned explicitly.  `tab` in the source is the constant 4. -/
def Position.display (p : Position) (f : String) (content : String) :
    Except Unit String := do
  let lines := rustLines content
  match sliceGetInclusive lines p.ln.start p.ln.stop with
  | none =>
    let f ← wrln f "... code snippet unavailable ..."
    return f
  | some lns =>
    if lns.isEmpty then
      let f ← wrln f "... code snippet unavailable ..."
      return f
    else if lns.length == 1 then
      let line := lns.headD ""
      let ln := p.ln.start
      let f ← wrln f (padLeft (toString (ln + 1)) 4 ++ "| " ++ line)
      let f ← wrln f (padLeft "" 4 ++ "  " ++
        String.mk ((charIndices line).map
          (fun ic => if p.col.start ≤ ic.1 ∧ p.col.stop > ic.1 then '~' else ' ')))
      return f
    else
      let lastLn := lns.length - 1
      let f ← lns.enum.foldlM (displayRowM p lastLn) f
      return f

/-! ## Specification-side definitions -/

/-- The starting byte offset (in UTF-8) of the `j`-th character of a line:
the sum of the UTF-8 sizes of the characters before it.  This is the
specification-side description of the offsets produced by
`str::char_indices`. -/
def byteOffsetAt (cs : List Char) (j : Nat) : Nat :=
  ((cs.take j).map Char.utf8Size).sum

/-- Concatenation of a list of output rows. -/
def concatRows : List String → String
  | [] => ""
  | r :: rs => r ++ concatRows rs

/-- The underline row as the spec's claim words it for the single-line
case: the marked positions are indices into the sequence of
characters/codepoints of the line, NOT byte offsets.  This follows the
spec's words, for comparison with the code's `char_indices`-based row. -/
def specCharIndexMarker (col : Range) (line : String) : String :=
  String.mk (line.data.enum.map
    (fun jc => if col.start ≤ jc.1 ∧ jc.1 < col.stop then '~' else ' '))

/-- The underline marker produced for row `x` in the multi-line branch of
`Position::display` (first row, last row, or interior row). -/
def displayMarker (p : Position) (lastLn : Nat) (x : Nat × String) : String :=
  if x.1 == 0 then
    String.mk ((charIndices x.2).map
      (fun ic => if p.col.start ≤ ic.1 then '~' else ' '))
  else if x.1 == lastLn then
    String.mk ((charIndices x.2).map
      (fun ic => if p.col.stop > ic.1 then '~' else ' '))
  else
    String.mk (List.replicate x.2.utf8ByteSize '~')

/-- The full text appended for row `x` (header line plus underline line)
in the multi-line branch of `Position::display`. -/
def displayRow (p : Position) (lastLn : Nat) (x : Nat × String) : String :=
  padLeft (toString (x.1 + 1)) 4 ++ "| " ++ x.2 ++ "\n" ++
    (padLeft "" 4 ++ "  " ++ displayMarker p lastLn x ++ "\n")

/-! ## Helper lemmas -/

theorem wrln_bind (f s : String) (k : String → Except Unit String) :
    wrln f s >>= k = k (f ++ s ++ "\n") := rfl

theorem ok_bind {α β : Type} (a : α) (k : α → Except Unit β) :
    (Except.ok a >>= k : Except Unit β) = k a := rfl

theorem charIndicesAux_length (i : Nat) (cs : List Char) :
    (charIndicesAux i cs).length = cs.length := by
  induction cs generalizing i with
  | nil => rfl
  | cons c cs ih => simp [charIndicesAux, ih]

theorem byteOffsetAt_zero (cs : List Char) : byteOffsetAt cs 0 = 0 := by
  simp [byteOffsetAt]

theorem byteOffsetAt_cons (c : Char) (cs : List Char) (j : Nat) :
    byteOffsetAt (c :: cs) (j + 1) = c.utf8Size + byteOffsetAt cs j := by
  simp [byteOffsetAt, List.take_succ_cons]

theorem charIndicesAux_getElem? (i : Nat) (cs : List Char) (j : Nat) :
    (charIndicesAux i cs)[j]? =
      Option.map (fun c => (i + byteOffsetAt cs j, c)) cs[j]? := by
  induction cs generalizing i j with
  | nil => simp [charIndicesAux]
  | cons c cs ih =>
    cases j with
    | zero => simp [charIndicesAux, byteOffsetAt_zero]
    | succ j => simp [charIndicesAux, ih, byteOffsetAt_cons, Nat.add_assoc]

theorem markerString_length (g : Nat × Char → Char) (line : String) :
    (String.mk ((charIndices line).map g)).data.length = line.data.length := by
  simp [charIndices, charIndicesAux_length]

theorem markerString_getElem? (g : Nat × Char → Char) (line : String) (j : Nat)
    (h : j < line.data.length) :
    (String.mk ((charIndices line).map g)).data[j]? =
      some (g (byteOffsetAt line.data j, line.data[j])) := by
  show ((charIndices line).map g)[j]? = _
  rw [List.getElem?_map, charIndices, charIndicesAux_getElem?,
    List.getElem?_eq_getElem h]
  simp

theorem display_fallback_eq (p : Position) (f content : String)
    (h : sliceGetInclusive (rustLines content) p.ln.start p.ln.stop = none ∨
         sliceGetInclusive (rustLines content) p.ln.start p.ln.stop = some []) :
    p.display f content = Except.ok (f ++ "... code snippet unavailable ...\n") := by
  have key : (f ++ "... code snippet unavailable ..." ++ "\n" : String) =
      f ++ "... code snippet unavailable ...\n" := by
    rw [String.append_assoc]
    rfl
  rcases h with h | h <;>
  · simp only [Position.display, h]
    rw [← key]
    rfl

theorem display_single_eq (p : Position) (f content line : String)
    (h : sliceGetInclusive (rustLines content) p.ln.start p.ln.stop = some [line]) :
    p.display f content =
      Except.ok (f ++ (padLeft (toString (p.ln.start + 1)) 4 ++ "| " ++ line) ++ "\n" ++
        (padLeft "" 4 ++ "  " ++
          String.mk ((charIndices line).map
            (fun ic => if p.col.start ≤ ic.1 ∧ p.col.stop > ic.1 then '~' else ' '))) ++
        "\n") := by
  simp only [Position.display, h]
  rfl

theorem displayRowM_ok (p : Position) (lastLn : Nat) (f : String) (x : Nat × String) :
    displayRowM p lastLn f x = Except.ok (f ++ displayRow p lastLn x) := by
  simp only [displayRowM, displayRow, displayMarker, wrln_bind]
  split_ifs <;> simp [wrln, String.append_assoc]

theorem foldlM_displayRowM (p : Position) (lastLn : Nat) (l : List (Nat × String))
    (f : String) :
    l.foldlM (displayRowM p lastLn) f =
      Except.ok (f ++ concatRows (l.map (displayRow p lastLn))) := by
  induction l generalizing f with
  | nil =>
    show Except.ok f = Except.ok (f ++ concatRows [])
    simp [concatRows]
  | cons x xs ih =>
    rw [List.foldlM_cons, displayRowM_ok]
    show (Except.ok (f ++ displayRow p lastLn x) >>=
      fun f2 => xs.foldlM (displayRowM p lastLn) f2) = _
    rw [ok_bind, ih]
    simp [concatRows, String.append_assoc]

theorem display_multi_eq (p : Position) (f content : String) (lns : List String)
    (h : sliceGetInclusive (rustLines content) p.ln.start p.ln.stop = some lns)
    (h2 : 1 < lns.length) :
    p.display f content =
      Except.ok (f ++ concatRows (lns.enum.map (displayRow p (lns.length - 1)))) := by
  have hne : lns.isEmpty = false := by
    cases lns with
    | nil => simp at h2
    | cons a as => rfl
  have h1 : (lns.length == 1) = false := by
    simp only [beq_eq_false_iff_ne, ne_eq]
    omega
  simp only [Position.display, h, hne, h1, Bool.false_eq_true, if_false,
    foldlM_displayRowM]
  rfl

theorem extend_eq (a b : Position) :
    a.extend b =
      ⟨⟨min a.ln.start b.ln.start, max a.ln.stop b.ln.stop⟩,
       ⟨min a.col.start b.col.start, max a.col.stop b.col.stop⟩⟩ := by
  obtain ⟨⟨als, ale⟩, ⟨acs, ace⟩⟩ := a
  obtain ⟨⟨bls, ble⟩, ⟨bcs, bce⟩⟩ := b
  simp only [Position.extend]
  split_ifs <;> simp_all [Position.mk.injEq, Range.mk.injEq] <;> omega

/-! ## The claims -/

/-- C5: for all Positions `a` and `b`, `a.extend(&b)` yields the
coordinate-wise bounding box: `ln.start` is the min of the two `ln`
starts, `ln.end` the max of the two `ln` ends, `col.start` the min of the
two `col` starts, and `col.end` the max of the two `col` ends. -/
theorem extend_bounding_box (a b : Position) :
    a.extend b =
      ⟨⟨min a.ln.start b.ln.start, max a.ln.stop b.ln.stop⟩,
       ⟨min a.col.start b.col.start, max a.col.stop b.col.stop⟩⟩ :=
  extend_eq a b

/-- C9: if `b`'s span is contained in `a`'s span (per axis, `b.ln` within
`a.ln` and `b.col` within `a.col`), then `a.extend(&b)` leaves `a`
unchanged. -/
theorem extend_noop_of_contained (a b : Position)
    (h1 : a.ln.start ≤ b.ln.start) (h2 : b.ln.stop ≤ a.ln.stop)
    (h3 : a.col.start ≤ b.col.start) (h4 : b.col.stop ≤ a.col.stop) :
    a.extend b = a := by
  rw [extend_eq]
  obtain ⟨⟨als, ale⟩, ⟨acs, ace⟩⟩ := a
  obtain ⟨⟨bls, ble⟩, ⟨bcs, bce⟩⟩ := b
  simp_all [Position.mk.injEq, Range.mk.injEq]

theorem extend_noop_of_contained_witness :
    (0 : Nat) ≤ 2 ∧ (5 : Nat) ≤ 10 ∧ (0 : Nat) ≤ 3 ∧ (4 : Nat) ≤ 10 ∧
    Position.extend ⟨⟨0, 10⟩, ⟨0, 10⟩⟩ ⟨⟨2, 5⟩, ⟨3, 4⟩⟩ = ⟨⟨0, 10⟩, ⟨0, 10⟩⟩ :=
  ⟨by decide, by decide, by decide, by decide,
   extend_noop_of_contained ⟨⟨0, 10⟩, ⟨0, 10⟩⟩ ⟨⟨2, 5⟩, ⟨3, 4⟩⟩
     (by decide) (by decide) (by decide) (by decide)⟩

/-- C6: `Located<T>` (and `PathLocated<T>`) equality compares only the
inner values; position (and path) are ignored, so wrappers with equal
values but different positions or paths compare equal. -/
theorem located_eq_ignores_position :
    ∀ (T : Type) [_inst : DecidableEq T] (x y : Located T)
      (xp yp : PathLocated T),
      (Located.beq x y = true ↔ x.value = y.value) ∧
      (PathLocated.beq xp yp = true ↔ xp.value = yp.value) ∧
      (∀ (v : T) (p q : Position) (s t : String),
        Located.beq ⟨v, p⟩ ⟨v, q⟩ = true ∧
        PathLocated.beq ⟨v, p, s⟩ ⟨v, q, t⟩ = true) := by
  intro T _inst x y xp yp
  refine ⟨?_, ?_, ?_⟩ <;> simp [Located.beq, PathLocated.beq]

/-- C7: hashing a `Located<T>` feeds both the value's and the position's
hash words (and `PathLocated<T>` additionally the path's), so there exist
wrappers that are equal (same value, different positions) yet hash
differently. -/
theorem located_hash_includes_position :
    (∀ (T : Type) (hT : T → List Nat) (x : Located T),
        Located.hashFeed hT x = hT x.value ++ Position.hashFeed x.pos) ∧
    (∀ (T : Type) (hT : T → List Nat) (x : PathLocated T),
        PathLocated.hashFeed hT x =
          hT x.value ++ Position.hashFeed x.pos ++ pathHashFeed x.path) ∧
    (∃ x y : Located Nat, Located.beq x y = true ∧
        Located.hashFeed (fun n => [n]) x ≠ Located.hashFeed (fun n => [n]) y) ∧
    (∃ x y : PathLocated Nat, PathLocated.beq x y = true ∧
        PathLocated.hashFeed (fun n => [n]) x ≠
          PathLocated.hashFeed (fun n => [n]) y) := by
  refine ⟨fun T hT x => rfl, fun T hT x => rfl,
    ⟨⟨0, ⟨⟨0, 0⟩, ⟨0, 0⟩⟩⟩, ⟨0, ⟨⟨0, 1⟩, ⟨0, 0⟩⟩⟩, by decide, by decide⟩,
    ⟨⟨0, ⟨⟨0, 0⟩, ⟨0, 0⟩⟩, "p"⟩, ⟨0, ⟨⟨0, 1⟩, ⟨0, 0⟩⟩, "p"⟩, by decide, ?_⟩⟩
  intro hcontra
  simp [PathLocated.hashFeed, Position.hashFeed, pathHashFeed] at hcontra

/-- C8: `map` transforms the inner value by `g` and carries the position
(and, for `PathLocated`, the path) forward unchanged. -/
theorem located_map_preserves_position :
    ∀ (T U : Type) (g : T → U) (x : Located T) (y : PathLocated T),
      ((x.map g).pos = x.pos ∧ (x.map g).value = g x.value) ∧
      ((y.map g).pos = y.pos ∧ (y.map g).path = y.path ∧
        (y.map g).value = g y.value) :=
  fun _ _ _ _ _ => ⟨⟨rfl, rfl⟩, rfl, rfl, rfl⟩

/-- C4: when the inclusive line range is out of bounds of the lines of
`content` (the slice lookup fails) or the selected slice is empty,
`display` appends exactly the single fallback line and returns
successfully. -/
theorem display_out_of_range_fallback (p : Position) (f content : String)
    (h : sliceGetInclusive (rustLines content) p.ln.start p.ln.stop = none ∨
         sliceGetInclusive (rustLines content) p.ln.start p.ln.stop = some []) :
    p.display f content = Except.ok (f ++ "... code snippet unavailable ...\n") :=
  display_fallback_eq p f content h

theorem display_out_of_range_fallback_witness :
    (sliceGetInclusive (rustLines "a") 5 5 = none ∨
     sliceGetInclusive (rustLines "a") 5 5 = some []) ∧
    Position.display ⟨⟨5, 5⟩, ⟨0, 1⟩⟩ "" "a" =
      Except.ok ("" ++ "... code snippet unavailable ...\n") :=
  ⟨Or.inl (by decide),
   display_out_of_range_fallback ⟨⟨5, 5⟩, ⟨0, 1⟩⟩ "" "a" (Or.inl (by decide))⟩

/-- C10: `display` always returns `Ok`: the buffer-write primitive on a
`String` cannot fail, so the error branch is unreachable and the function
is total. -/
theorem display_total_ok (p : Position) (f content : String) :
    ∃ out : String, p.display f content = Except.ok out := by
  cases h : sliceGetInclusive (rustLines content) p.ln.start p.ln.stop with
  | none => exact ⟨_, display_fallback_eq p f content (Or.inl h)⟩
  | some lns =>
    match lns, h with
    | [], h => exact ⟨_, display_fallback_eq p f content (Or.inr h)⟩
    | [line], h => exact ⟨_, display_single_eq p f content line h⟩
    | l1 :: l2 :: rest, h =>
      exact ⟨_, display_multi_eq p f content (l1 :: l2 :: rest) h
        (by simp only [List.length_cons]; omega)⟩

/-- C1 (amended): for a span whose selected line range contains exactly
one line, `display` emits that line prefixed by the 1-based line number
`self.ln.start + 1` right-aligned in a width-4 field followed by `"| "`,
and on the next line an underline row (width-4 indent plus two spaces)
with a `'~'` at exactly those character positions whose starting UTF-8
byte offset (as produced by `char_indices`, NOT the codepoint index)
falls within `[self.col.start, self.col.end)`, and a space elsewhere. -/
theorem display_single_line_underline (p : Position) (f content line : String)
    (h : sliceGetInclusive (rustLines content) p.ln.start p.ln.stop = some [line]) :
    ∃ u : String,
      p.display f content =
        Except.ok (f ++ (padLeft (toString (p.ln.start + 1)) 4 ++ "| " ++ line) ++
          "\n" ++ (padLeft "" 4 ++ "  " ++ u) ++ "\n") ∧
      u.data.length = line.data.length ∧
      ∀ j : Nat, j < line.data.length →
        u.data[j]? = some (if p.col.start ≤ byteOffsetAt line.data j ∧
            byteOffsetAt line.data j < p.col.stop then '~' else ' ') := by
  refine ⟨String.mk ((charIndices line).map
      (fun ic => if p.col.start ≤ ic.1 ∧ p.col.stop > ic.1 then '~' else ' ')),
    display_single_eq p f content line h, markerString_length _ line, ?_⟩
  intro j hj
  rw [markerString_getElem? _ line j hj]

theorem display_single_line_underline_witness :
    sliceGetInclusive (rustLines "hello man") 0 0 = some ["hello man"] ∧
    (∃ u : String,
      Position.display ⟨⟨0, 0⟩, ⟨1, 5⟩⟩ "" "hello man" =
        Except.ok ("" ++ (padLeft (toString (0 + 1)) 4 ++ "| " ++ "hello man") ++
          "\n" ++ (padLeft "" 4 ++ "  " ++ u) ++ "\n") ∧
      u.data.length = ("hello man" : String).data.length ∧
      ∀ j : Nat, j < ("hello man" : String).data.length →
        u.data[j]? = some (if 1 ≤ byteOffsetAt ("hello man" : String).data j ∧
            byteOffsetAt ("hello man" : String).data j < 5 then '~' else ' ')) :=
  ⟨by decide,
   display_single_line_underline ⟨⟨0, 0⟩, ⟨1, 5⟩⟩ "" "hello man" "hello man"
     (by decide)⟩

/-- C1 counterexample: the claim as stated (positions counted as
codepoint indices of the line, not byte offsets) is false on the code.
On line `"héllo"` with `col = 2..3`, the code marks characters whose
starting byte offset lies in `[2, 3)` — there is none, since `é` occupies
bytes 1–2 — and prints a blank underline, while the claim's
codepoint-index reading predicts a `'~'` under the first `l`. -/
theorem display_single_line_char_index_counterexample :
    Position.display ⟨⟨0, 0⟩, ⟨2, 3⟩⟩ "" "héllo" =
      Except.ok "   1| héllo\n           \n" ∧
    "" ++ (padLeft (toString (0 + 1)) 4 ++ "| " ++ "héllo") ++ "\n" ++
        (padLeft "" 4 ++ "  " ++ specCharIndexMarker ⟨2, 3⟩ "héllo") ++ "\n" =
      "   1| héllo\n        ~  \n" ∧
    ("   1| héllo\n           \n" : String) ≠ "   1| héllo\n        ~  \n" :=
  ⟨by rfl, by rfl, by decide⟩

/-- C2: for a span whose selected line range contains more than one line,
`display` prints for every selected line a line-number header using the
local 1-based index into the selected sub-range (`ln + 1` for local index
`ln`), not the absolute file line number. -/
theorem display_multiline_local_line_numbers (p : Position) (f content : String)
    (lns : List String)
    (h : sliceGetInclusive (rustLines content) p.ln.start p.ln.stop = some lns)
    (h2 : 1 < lns.length) :
    ∃ rows : List String,
      p.display f content = Except.ok (f ++ concatRows rows) ∧
      rows.length = lns.length ∧
      ∀ ln : Nat, ln < lns.length → ∃ rest : String,
        rows[ln]? = some (padLeft (toString (ln + 1)) 4 ++ "| " ++
          lns.getD ln "" ++ "\n" ++ rest) := by
  refine ⟨lns.enum.map (displayRow p (lns.length - 1)),
    display_multi_eq p f content lns h h2, by simp, ?_⟩
  intro ln hln
  refine ⟨padLeft "" 4 ++ "  " ++
    displayMarker p (lns.length - 1) (ln, lns.getD ln "") ++ "\n", ?_⟩
  rw [List.getElem?_map, List.getElem?_enum, List.getElem?_eq_getElem hln,
    List.getD_eq_getElem?_getD, List.getElem?_eq_getElem hln]
  simp [displayRow]

theorem display_multiline_local_line_numbers_witness :
    sliceGetInclusive (rustLines "ab\ncd") 0 1 = some ["ab", "cd"] ∧
    1 < (["ab", "cd"] : List String).length ∧
    (∃ rows : List String,
      Position.display ⟨⟨0, 1⟩, ⟨1, 2⟩⟩ "" "ab\ncd" =
        Except.ok ("" ++ concatRows rows) ∧
      rows.length = (["ab", "cd"] : List String).length ∧
      ∀ ln : Nat, ln < (["ab", "cd"] : List String).length → ∃ rest : String,
        rows[ln]? = some (padLeft (toString (ln + 1)) 4 ++ "| " ++
          (["ab", "cd"] : List String).getD ln "" ++ "\n" ++ rest)) :=
  ⟨by decide, by decide,
   display_multiline_local_line_numbers ⟨⟨0, 1⟩, ⟨1, 2⟩⟩ "" "ab\ncd"
     ["ab", "cd"] (by decide) (by decide)⟩

/-- C3: in a multi-line rendering, the underline row under the first
selected line has a `'~'` at every character whose starting byte offset is
at or after `self.col.start` (ignoring `col.end`); the underline under the
last selected line has a `'~'` at every character whose starting byte
offset is strictly before `self.col.end` (ignoring `col.start`); and every
line strictly between first and last is underlined by `'~'` repeated for
the line's length in bytes. -/
theorem display_multiline_underline_rows (p : Position) (f content : String)
    (lns : List String)
    (h : sliceGetInclusive (rustLines content) p.ln.start p.ln.stop = some lns)
    (h2 : 1 < lns.length) :
    ∃ rows : List String,
      p.display f content = Except.ok (f ++ concatRows rows) ∧
      rows.length = lns.length ∧
      ∀ ln : Nat, ln < lns.length → ∃ u : String,
        rows[ln]? = some (padLeft (toString (ln + 1)) 4 ++ "| " ++
          lns.getD ln "" ++ "\n" ++ (padLeft "" 4 ++ "  " ++ u ++ "\n")) ∧
        (ln = 0 →
          u.data.length = (lns.getD ln "").data.length ∧
          ∀ j : Nat, j < (lns.getD ln "").data.length →
            u.data[j]? = some (if p.col.start ≤ byteOffsetAt (lns.getD ln "").data j
              then '~' else ' ')) ∧
        (ln = lns.length - 1 →
          u.data.length = (lns.getD ln "").data.length ∧
          ∀ j : Nat, j < (lns.getD ln "").data.length →
            u.data[j]? = some (if byteOffsetAt (lns.getD ln "").data j < p.col.stop
              then '~' else ' ')) ∧
        (0 < ln → ln < lns.length - 1 →
          u = String.mk (List.replicate (lns.getD ln "").utf8ByteSize '~')) := by
  refine ⟨lns.enum.map (displayRow p (lns.length - 1)),
    display_multi_eq p f content lns h h2, by simp, ?_⟩
  intro ln hln
  refine ⟨displayMarker p (lns.length - 1) (ln, lns.getD ln ""), ?_, ?_, ?_, ?_⟩
  · rw [List.getElem?_map, List.getElem?_enum, List.getElem?_eq_getElem hln,
      List.getD_eq_getElem?_getD, List.getElem?_eq_getElem hln]
    simp [displayRow, String.append_assoc]
  · intro h0
    subst h0
    simp only [displayMarker]
    rw [if_pos (by decide)]
    refine ⟨markerString_length _ _, ?_⟩
    intro j hj
    rw [markerString_getElem? _ _ j hj]
  · intro hlast
    have hne0 : ¬ (ln == 0) = true := by
      simp only [beq_iff_eq]
      omega
    have heq : (ln == lns.length - 1) = true := by
      simp only [beq_iff_eq]
      omega
    simp only [displayMarker]
    rw [if_neg hne0, if_pos heq]
    refine ⟨markerString_length _ _, ?_⟩
    intro j hj
    rw [markerString_getElem? _ _ j hj]
  · intro hpos hmid
    have hne0 : ¬ (ln == 0) = true := by
      simp only [beq_iff_eq]
      omega
    have hnel : ¬ (ln == lns.length - 1) = true := by
      simp only [beq_iff_eq]
      omega
    simp only [displayMarker]
    rw [if_neg hne0, if_neg hnel]

theorem display_multiline_underline_rows_witness :
    sliceGetInclusive (rustLines "ab\ncd\nef") 0 2 = some ["ab", "cd", "ef"] ∧
    1 < (["ab", "cd", "ef"] : List String).length ∧
    (∃ rows : List String,
      Position.display ⟨⟨0, 2⟩, ⟨1, 1⟩⟩ "" "ab\ncd\nef" =
        Except.ok ("" ++ concatRows rows) ∧
      rows.length = (["ab", "cd", "ef"] : List String).length ∧
      ∀ ln : Nat, ln < (["ab", "cd", "ef"] : List String).length → ∃ u : String,
        rows[ln]? = some (padLeft (toString (ln + 1)) 4 ++ "| " ++
          (["ab", "cd", "ef"] : List String).getD ln "" ++ "\n" ++
          (padLeft "" 4 ++ "  " ++ u ++ "\n")) ∧
        (ln = 0 →
          u.data.length = ((["ab", "cd", "ef"] : List String).getD ln "").data.length ∧
          ∀ j : Nat, j < ((["ab", "cd", "ef"] : List String).getD ln "").data.length →
            u.data[j]? = some (if 1 ≤
                byteOffsetAt ((["ab", "cd", "ef"] : List String).getD ln "").data j
              then '~' else ' ')) ∧
        (ln = (["ab", "cd", "ef"] : List String).length - 1 →
          u.data.length = ((["ab", "cd", "ef"] : List String).getD ln "").data.length ∧
          ∀ j : Nat, j < ((["ab", "cd", "ef"] : List String).getD ln "").data.length →
            u.data[j]? = some (if
                byteOffsetAt ((["ab", "cd", "ef"] : List String).getD ln "").data j < 1
              then '~' else ' ')) ∧
        (0 < ln → ln < (["ab", "cd", "ef"] : List String).length - 1 →
          u = String.mk (List.replicate
            ((["ab", "cd", "ef"] : List String).getD ln "").utf8ByteSize '~'))) :=
  ⟨by decide, by decide,
   display_multiline_underline_rows ⟨⟨0, 2⟩, ⟨1, 1⟩⟩ "" "ab\ncd\nef"
     ["ab", "cd", "ef"] (by decide) (by decide)⟩

end ParsePos
